import Mathlib

/-!
Verification of the submarine-reminder core (`src/main.py`) against its
natural-language specification.  The Python source is shallowly embedded:
strings are `List Char`, machine floats holding whole-second timestamps are
modelled as exact integers (Python's `json` serialises floats via their
shortest round-tripping decimal representation, so no precision is lost by
this identification), `datetime.timedelta` values produced by `parse_delta`
are total minutes (`timedelta(hours=h, minutes=m)` is determined by
`60*h + m`), and exceptions are `Option`/`Except`.  Unicode NFKC
normalisation is the identity on every character the development touches
(ASCII and `'分'`), so it is not modelled separately.
-/

namespace FF14Sub

/-! ### Text helpers shared by the embedded functions -/

/-- Python `str.strip()` restricted to the whitespace characters that occur in
the modelled inputs: drop whitespace from both ends. -/
def stripL (l : List Char) : List Char :=
  ((l.dropWhile Char.isWhitespace).reverse.dropWhile Char.isWhitespace).reverse

/-- Python `str.lower()`: character-wise lowercasing. -/
def lowerL (l : List Char) : List Char := l.map Char.toLower

/-- Python `"alexander".startswith(t)` style test: `isPrefixL t s` holds when
`t` is a prefix of `s`. -/
def isPrefixL : List Char → List Char → Bool
  | [], _ => true
  | _ :: _, [] => false
  | c :: cs, d :: ds => c = d && isPrefixL cs ds

/-- Python `s.replace("minutes", "min")`: leftmost, non-overlapping. -/
def replaceMinutes : List Char → List Char
  | 'm' :: 'i' :: 'n' :: 'u' :: 't' :: 'e' :: 's' :: rest =>
      'm' :: 'i' :: 'n' :: replaceMinutes rest
  | c :: rest => c :: replaceMinutes rest
  | [] => []

/-- Python `s.replace("minute", "min")`: leftmost, non-overlapping. -/
def replaceMinute : List Char → List Char
  | 'm' :: 'i' :: 'n' :: 'u' :: 't' :: 'e' :: rest =>
      'm' :: 'i' :: 'n' :: replaceMinute rest
  | c :: rest => c :: replaceMinute rest
  | [] => []

/-- Python `s.replace("分", "min")`. -/
def replaceFun1 : List Char → List Char
  | '分' :: rest => 'm' :: 'i' :: 'n' :: replaceFun1 rest
  | c :: rest => c :: replaceFun1 rest
  | [] => []

/-! ### Time grammar (`parse_delta`, `src/main.py` lines 37-56) -/

/-- The separator characters ignored between duration tokens
(`if ch in (" ", ":", "/", "+")`). -/
def sepChars : List Char := [' ', ':', '/', '+']

/-- Value of the Python variable `last` inside `parse_delta`'s loop:
`"h"` or `"m"` (or `None`, modelled by `Option`). -/
inductive LastU where
  | hU
  | mU
  deriving DecidableEq

/-- Python `int(buf)` for a buffer of decimal digit characters. -/
def digitsToNat (cs : List Char) : Nat :=
  cs.foldl (fun a c => 10 * a + (c.toNat - 48)) 0

/-- The character-scanning loop of `parse_delta` (`src/main.py` lines 40-55),
together with the final `if buf and last != "m": m += int(buf)`.  The state is
`(h, m, buf, last)`; the result is `none` on `ValueError`, otherwise the pair
`(h, m)` of accumulated hours and minutes. -/
def parseLoop : List Char → Nat → Nat → List Char → Option LastU → Option (Nat × Nat)
  | [], h, m, buf, last =>
      if buf ≠ [] ∧ last ≠ some LastU.mU then some (h, m + digitsToNat buf)
      else some (h, m)
  | c :: rest, h, m, buf, last =>
      if c.isDigit then parseLoop rest h m (buf ++ [c]) last
      else if c = 'h' then
        if buf = [] then none
        else parseLoop rest (h + digitsToNat buf) m [] (some LastU.hU)
      else if c = 'm' ∧ rest.take 2 = ['i', 'n'] then
        if buf = [] then none
        else parseLoop (rest.drop 2) h (m + digitsToNat buf) [] (some LastU.mU)
      else if c = 'm' then
        if buf = [] then none
        else parseLoop rest h (m + digitsToNat buf) [] (some LastU.mU)
      else if c ∈ sepChars then parseLoop rest h m buf last
      else none
termination_by l _ _ _ _ => l.length
decreasing_by
  all_goals simp [List.length_drop]
  all_goals omega

/-- The tokenizing phase of `parse_delta` applied to an already normalised
string, returning the parsed duration as total minutes
(`timedelta(hours=h, minutes=m)` is `60*h + m` minutes). -/
def parseDeltaCore (cs : List Char) : Option Nat :=
  (parseLoop cs 0 0 [] none).map (fun p => 60 * p.1 + p.2)

/-- `parse_delta` (`src/main.py` lines 37-56): normalise (strip, lowercase,
rewrite the long and localized minute spellings to `min`), then tokenize.
`none` models the raised `ValueError`. -/
def parse_delta (s : List Char) : Option Nat :=
  parseDeltaCore (replaceFun1 (replaceMinute (replaceMinutes (lowerL (stripL s)))))

/-! ### Duration token strings

A valid duration string, after normalisation, is a sequence of
`<digits><unit>` tokens with separator characters allowed in between
(spec §4.1).  `DToken` is one such token, represented by its digit values
(most significant first) and its unit marker; `renderSeq` renders a token
sequence interleaved with arbitrary separator runs back into the character
string that `parseLoop` consumes. -/

/-- A unit marker: the hour marker `h`, the long minute marker `min`, or the
short minute marker `m`. -/
inductive TUnit where
  | uH
  | uMin
  | uM
  deriving DecidableEq

/-- One `<digits><unit>` token of the duration grammar. -/
structure DToken where
  digits : List Nat
  unit : TUnit
  deriving DecidableEq

/-- The character for the decimal digit `d`. -/
def digitChar (d : Nat) : Char := Char.ofNat (48 + d)

/-- The characters of a unit marker. -/
def unitChars : TUnit → List Char
  | TUnit.uH => ['h']
  | TUnit.uMin => ['m', 'i', 'n']
  | TUnit.uM => ['m']

/-- Render one token. -/
def renderTok (t : DToken) : List Char := t.digits.map digitChar ++ unitChars t.unit

/-- Render a token sequence, each token followed by its own (possibly empty)
run of separator characters. -/
def renderSeq : List (DToken × List Char) → List Char
  | [] => []
  | (t, sp) :: rest => renderTok t ++ sp ++ renderSeq rest

/-- Numeric value of a digit sequence (most significant first). -/
def natOfDigits (ds : List Nat) : Nat := ds.foldl (fun a d => 10 * a + d) 0

/-- The contribution of a single token to the parsed duration, in minutes:
an hour token contributes sixty times its digits' value, a minute token
contributes its digits' value. -/
def tokMinutes (t : DToken) : Nat :=
  match t.unit with
  | TUnit.uH => 60 * natOfDigits t.digits
  | _ => natOfDigits t.digits

/-- Hour-count contribution of a token. -/
def hVal (t : DToken) : Nat :=
  match t.unit with
  | TUnit.uH => natOfDigits t.digits
  | _ => 0

/-- Minute-count contribution of a token. -/
def mVal (t : DToken) : Nat :=
  match t.unit with
  | TUnit.uH => 0
  | _ => natOfDigits t.digits

/-- Sum of the hour counts of a rendered sequence. -/
def hSum (l : List (DToken × List Char)) : Nat := (l.map (fun p => hVal p.1)).sum

/-- Sum of the minute counts of a rendered sequence. -/
def mSum (l : List (DToken × List Char)) : Nat := (l.map (fun p => mVal p.1)).sum

/-- The `last` marker a unit leaves behind in `parse_delta`'s loop. -/
def lastU : TUnit → LastU
  | TUnit.uH => LastU.hU
  | _ => LastU.mU

/-- The final value of the loop variable `last` after consuming a token
sequence, starting from `acc`. -/
def lastOf : List (DToken × List Char) → Option LastU → Option LastU
  | [], acc => acc
  | (t, _) :: rest, _ => lastOf rest (some (lastU t.unit))

/-- Well-formedness of a token: at least one digit, all digit values below
ten. -/
def ValidTok (t : DToken) : Prop := t.digits ≠ [] ∧ ∀ d ∈ t.digits, d < 10

/-- A separator run consists solely of separator characters. -/
def ValidSeps (sp : List Char) : Prop := ∀ c ∈ sp, c ∈ sepChars

/-- Well-formedness of a rendered token sequence. -/
def ValidSeq (l : List (DToken × List Char)) : Prop :=
  ∀ p ∈ l, ValidTok p.1 ∧ ValidSeps p.2

instance : DecidablePred ValidTok := fun _ => by unfold ValidTok; infer_instance

instance : DecidablePred ValidSeps := fun _ => by unfold ValidSeps; infer_instance

instance : DecidablePred ValidSeq := fun _ => by unfold ValidSeq; infer_instance

/-- A continuation is safe to place after a rendered token when its first
character (if any) is a digit or a separator; this rules out the lookahead
`startswith("min", i)` misfiring across a token boundary. -/
def contOk (l : List Char) : Prop :=
  ∀ c, l.head? = some c → (c.isDigit = true ∨ c ∈ sepChars)

/-! ### Alias resolver (`normalize_fc`, `src/main.py` lines 19-31) -/

/-- The lowercase canonical name `alexander`. -/
def canonA : List Char := ['a', 'l', 'e', 'x', 'a', 'n', 'd', 'e', 'r']

/-- The returned capitalised label `Alexander`. -/
def canonACap : List Char := ['A', 'l', 'e', 'x', 'a', 'n', 'd', 'e', 'r']

/-- The lowercase canonical name `pandemonium`. -/
def canonP : List Char := ['p', 'a', 'n', 'd', 'e', 'm', 'o', 'n', 'i', 'u', 'm']

/-- The returned capitalised label `Pandemonium`. -/
def canonPCap : List Char := ['P', 'a', 'n', 'd', 'e', 'm', 'o', 'n', 'i', 'u', 'm']

/-- `FC_ALIASES["alexander"]`. -/
def fcAliasesA : List (List Char) :=
  [['a'], ['a', 'l'], ['a', 'l', 'e'], ['a', 'l', 'e', 'x'],
   ['a', 'l', 'e', 'x', 'a', 'n'], canonA]

/-- `FC_ALIASES["pandemonium"]`. -/
def fcAliasesP : List (List Char) :=
  [['p'], ['p', 'a'], ['p', 'a', 'n'], ['p', 'a', 'n', 'd'],
   ['p', 'a', 'n', 'd', 'e'], ['p', 'a', 'n', 'd', 'e', 'm', 'o'], canonP]

/-- `normalize_fc` (`src/main.py` lines 23-31): empty input is returned as is;
otherwise the stripped, lowercased input is matched exactly against each
canonical name and its alias set (in the dict's insertion order, `alexander`
first), then as a prefix of each canonical name, and finally the original
input is passed through unchanged. -/
def normalize_fc (s : List Char) : List Char :=
  if s = [] then []
  else if lowerL (stripL s) = canonA ∨ lowerL (stripL s) ∈ fcAliasesA then
    canonACap
  else if lowerL (stripL s) = canonP ∨ lowerL (stripL s) ∈ fcAliasesP then
    canonPCap
  else if isPrefixL (lowerL (stripL s)) canonA then canonACap
  else if isPrefixL (lowerL (stripL s)) canonP then canonPCap
  else s

/-! ### The task data model (`Task`, `src/main.py` lines 65-75) -/

/-- The `Task` dataclass.  `arrive_utc` is the Python float POSIX timestamp,
modelled as an exact integer number of seconds. -/
structure Task where
  id : List Char
  guild_id : Int
  channel_id : Int
  user_id : Int
  fc : List Char
  boat : List Char
  note : List Char
  arrive_utc : Int
  done_arrive : Bool
  deriving DecidableEq

/-! ### The task store (`TaskStore`, `src/main.py` lines 77-92)

`self.tasks` is a Python dict, modelled as an insertion-ordered association
list with unique keys.  `save()` writes the snapshot and does not change the
in-memory state, so store operations return the new association list. -/

/-- Python dict assignment `d[k] = v`: update in place if the key exists,
append otherwise. -/
def dictSet : List (List Char × Task) → List Char → Task → List (List Char × Task)
  | [], k, v => [(k, v)]
  | (k', v') :: rest, k, v =>
      if k' = k then (k, v) :: rest else (k', v') :: dictSet rest k v

/-- Python dict lookup `d.get(k)` / `d[k]`. -/
def dictLookup : List (List Char × Task) → List Char → Option Task
  | [], _ => none
  | (k', v') :: rest, k => if k' = k then some v' else dictLookup rest k

/-- In-place mutation of the task stored under `k` (Python mutates the `Task`
object held by the dict, leaving its position unchanged). -/
def dictUpdate : List (List Char × Task) → List Char → (Task → Task) →
    List (List Char × Task)
  | [], _, _ => []
  | (k', v') :: rest, k, f =>
      (if k' = k then (k', f v') else (k', v')) :: dictUpdate rest k f

/-- `TaskStore.add` (`src/main.py` line 88): `self.tasks[t.id] = t` followed by
`save()`. -/
def storeAdd (st : List (List Char × Task)) (t : Task) : List (List Char × Task) :=
  dictSet st t.id t

/-- `TaskStore.by_guild` (`src/main.py` lines 91-92), applied to the dict's
value sequence: the tasks whose `guild_id` matches. -/
def by_guild (store : List Task) (gid : Int) : List Task :=
  store.filter (fun t => t.guild_id = gid)

/-- Failure modes of the `defer` command: unknown id (`IDが見つかりません`) or a
`ValueError` escaping from `parse_delta`. -/
inductive DeferErr where
  | notFound
  | badDelta
  deriving DecidableEq

/-- The `defer` command (`src/main.py` lines 217-222): reject an unknown id,
parse the delta, then `t.arrive_utc += td.total_seconds()` and `save()`.
`parse_delta` yields minutes, so `total_seconds()` is sixty times that. -/
def deferOp (st : List (List Char × Task)) (tid : List Char) (delta : List Char) :
    Except DeferErr (List (List Char × Task)) :=
  if (dictLookup st tid).isNone then Except.error DeferErr.notFound
  else
    match parse_delta delta with
    | none => Except.error DeferErr.badDelta
    | some mins =>
        Except.ok (dictUpdate st tid
          (fun t => { t with arrive_utc := t.arrive_utc + 60 * (mins : Int) }))

/-! ### The scheduler tick (`schedule_runner`, `src/main.py` lines 105-118)

One tick iterates over a snapshot of the dict's values.  For each undelivered
task whose arrival time has passed, the channel is resolved
(`client.get_channel` plus the `isinstance` test, modelled by `resolves`) and,
when it resolves, `send_arrival_notice` is awaited — a call that is *not*
wrapped in any exception handler, so a raising send (modelled by
`sendOk t = false`) propagates and aborts the whole coroutine.  Otherwise the
task is marked `done_arrive = True` and, being marked, immediately removed.
`tickE` returns `Except.error` with the store contents at the moment of the
exception, or `Except.ok` with the store after a completed tick. -/

def tickE (now : Int) (resolves sendOk : Task → Bool) :
    List Task → Except (List Task) (List Task)
  | [] => Except.ok []
  | t :: rest =>
      if !t.done_arrive && decide (now ≥ t.arrive_utc) then
        if resolves t && !sendOk t then Except.error (t :: rest)
        else tickE now resolves sendOk rest
      else if t.done_arrive then tickE now resolves sendOk rest
      else
        match tickE now resolves sendOk rest with
        | Except.ok l => Except.ok (t :: l)
        | Except.error l => Except.error (t :: l)

/-- The store contents after a tick, whether or not it was aborted by a
raising send. -/
def postStore : Except (List Task) (List Task) → List Task
  | Except.ok l => l
  | Except.error l => l

/-- Parameters of one scheduler tick: the clock reading and the channel
resolution and send outcomes. -/
abbrev TickStep : Type := Int × (Task → Bool) × (Task → Bool)

/-- Iterated scheduler ticks. -/
def runTicks : List TickStep → List Task → List Task
  | [], st => st
  | (n, r, s) :: steps, st => runTicks steps (postStore (tickE n r s st))

/-- The tasks a completed exception-free tick keeps: undelivered tasks whose
arrival time has not yet passed. -/
def tickKeeps (now : Int) (store : List Task) : List Task :=
  store.filter (fun t => !t.done_arrive && !(decide (now ≥ t.arrive_utc)))

/-! ### Flush counting for one tick (claim C9)

`TaskStore.remove` (`src/main.py` lines 89-90) itself calls `save()`, and
`schedule_runner` additionally calls `client.store.save()` once at the end of
a tick in which anything changed.  `tickSaves` counts, for an exception-free
tick, the `save()` calls issued by `remove` together with the final `changed`
flag. -/

def tickSaves (now : Int) : List Task → Nat × Bool
  | [] => (0, false)
  | t :: rest =>
      let mark := !t.done_arrive && decide (now ≥ t.arrive_utc)
      let doneA := t.done_arrive || mark
      let p := tickSaves now rest
      (p.1 + (if doneA then 1 else 0), mark || p.2)

/-- Total number of `save()` calls in one exception-free tick: one per removed
task, plus the final batch save when `changed` is true. -/
def totalSavesPerTick (now : Int) (store : List Task) : Nat :=
  (tickSaves now store).1 + (if (tickSaves now store).2 then 1 else 0)

/-! ### Persistence (`TaskStore.save` / `TaskStore.load`, lines 80-87)

`save()` dumps `{tid: vars(t) for tid, t in self.tasks.items()}` as JSON;
`load()` rebuilds `Task(**rec)` for each record.  The JSON fragment the store
writes and reads is modelled by `Json`; numbers are exact (Python's `json`
serialises floats via their shortest round-tripping decimal form). -/

inductive Json where
  | str : List Char → Json
  | num : Int → Json
  | jb : Bool → Json
  | obj : List (List Char × Json) → Json

/-- The field names of `Task`, as written by `vars(t)`. -/
def kId : List Char := ['i', 'd']

def kGuild : List Char := ['g', 'u', 'i', 'l', 'd', '_', 'i', 'd']

def kChannel : List Char := ['c', 'h', 'a', 'n', 'n', 'e', 'l', '_', 'i', 'd']

def kUser : List Char := ['u', 's', 'e', 'r', '_', 'i', 'd']

def kFc : List Char := ['f', 'c']

def kBoat : List Char := ['b', 'o', 'a', 't']

def kNote : List Char := ['n', 'o', 't', 'e']

def kArrive : List Char := ['a', 'r', 'r', 'i', 'v', 'e', '_', 'u', 't', 'c']

def kDone : List Char := ['d', 'o', 'n', 'e', '_', 'a', 'r', 'r', 'i', 'v', 'e']

/-- The keyword names accepted by `Task(**rec)`. -/
def taskKeys : List (List Char) :=
  [kId, kGuild, kChannel, kUser, kFc, kBoat, kNote, kArrive, kDone]

/-- `vars(t)` as serialised by `json.dump`. -/
def taskToJson (t : Task) : Json :=
  Json.obj
    [(kId, Json.str t.id), (kGuild, Json.num t.guild_id),
     (kChannel, Json.num t.channel_id), (kUser, Json.num t.user_id),
     (kFc, Json.str t.fc), (kBoat, Json.str t.boat), (kNote, Json.str t.note),
     (kArrive, Json.num t.arrive_utc), (kDone, Json.jb t.done_arrive)]

/-- Lookup of a field in a JSON object record. -/
def getField : List (List Char × Json) → List Char → Option Json
  | [], _ => none
  | (k, v) :: rest, key => if k = key then some v else getField rest key

/-- Typed field extraction. -/
def asStr : Option Json → Option (List Char)
  | some (Json.str s) => some s
  | _ => none

/-- Typed field extraction. -/
def asNum : Option Json → Option Int
  | some (Json.num n) => some n
  | _ => none

/-- `Task(**rec)`: every key of the record must be a `Task` field name
(an unknown keyword is a `TypeError`), every field except `done_arrive` must
be present, and `done_arrive` defaults to `False`.  The model additionally
demands the value types that `save()` writes; Python's dataclass would accept
ill-typed values, but `load` only ever consumes `save`'s output. -/
def taskOfJson : Json → Option Task
  | Json.obj fs =>
      if fs.all (fun kv => decide (kv.1 ∈ taskKeys)) then
        match asStr (getField fs kId), asNum (getField fs kGuild),
            asNum (getField fs kChannel), asNum (getField fs kUser),
            asStr (getField fs kFc), asStr (getField fs kBoat),
            asStr (getField fs kNote), asNum (getField fs kArrive) with
        | some i, some g, some c, some u, some f, some b, some n, some a =>
            match getField fs kDone with
            | none => some ⟨i, g, c, u, f, b, n, a, false⟩
            | some (Json.jb db) => some ⟨i, g, c, u, f, b, n, a, db⟩
            | some _ => none
        | _, _, _, _, _, _, _, _ => none
      else none
  | _ => none

/-- `save()` (`src/main.py` lines 85-87): the serialised snapshot of the whole
store. -/
def storeToJson (st : List (List Char × Task)) : Json :=
  Json.obj (st.map (fun kv => (kv.1, taskToJson kv.2)))

/-- Rebuild the tasks of a snapshot's records, in order; any bad record makes
the whole load fail. -/
def decodeEntries : List (List Char × Json) → Option (List (List Char × Task))
  | [] => some []
  | (k, v) :: rest =>
      match taskOfJson v, decodeEntries rest with
      | some t, some l => some ((k, t) :: l)
      | _, _ => none

/-- `load()` (`src/main.py` lines 80-84): rebuild every task of the snapshot. -/
def storeOfJson : Json → Option (List (List Char × Task))
  | Json.obj entries => decodeEntries entries
  | _ => none


/-! ### Concrete instances used by witnesses and counterexamples -/

/-- A pending task due at time 50. -/
def wTaskA : Task :=
  ⟨['a', 'a'], 1, 10, 5, canonACap, ['1'], [], 50, false⟩

/-- A second pending task (same guild) due at time 60. -/
def wTaskB : Task :=
  ⟨['b', 'b'], 1, 11, 5, canonPCap, ['2'], [], 60, false⟩

/-- A task sharing `wTaskA`'s id but with a different note. -/
def wTaskA2 : Task :=
  ⟨['a', 'a'], 1, 10, 5, canonACap, ['1'], ['x'], 70, false⟩

/-- A single duration token `90min` with no separators. -/
def demoSeq : List (DToken × List Char) := [(⟨[9, 0], TUnit.uMin⟩, [])]

/-- A single duration token `1h` with no separators. -/
def demoSeqH : List (DToken × List Char) := [(⟨[1], TUnit.uH⟩, [])]

/-! #### Facts about the characters occurring in rendered tokens -/

lemma digitChar_facts (d : Nat) (hd : d < 10) :
    (digitChar d).isDigit = true ∧ digitChar d ≠ 'h' ∧ digitChar d ≠ 'm' ∧
    digitChar d ≠ 'i' ∧ digitChar d ∉ sepChars ∧ (digitChar d).toNat = 48 + d := by
  interval_cases d <;> decide

lemma sep_facts :
    ∀ c ∈ sepChars, c.isDigit = false ∧ c ≠ 'h' ∧ c ≠ 'm' ∧ c ≠ 'i' := by
  decide

/-! #### Rewriting lemmas for single steps of `parseLoop` -/

lemma parseLoop_nil (h m : Nat) (buf : List Char) (last : Option LastU) :
    parseLoop [] h m buf last =
      if buf ≠ [] ∧ last ≠ some LastU.mU then some (h, m + digitsToNat buf)
      else some (h, m) := by
  simp [parseLoop]

lemma parseLoop_digit (c : Char) (rest : List Char) (h m : Nat) (buf : List Char)
    (last : Option LastU) (hc : c.isDigit = true) :
    parseLoop (c :: rest) h m buf last = parseLoop rest h m (buf ++ [c]) last := by
  rw [parseLoop]
  simp [hc]

lemma parseLoop_h (rest : List Char) (h m : Nat) (buf : List Char)
    (last : Option LastU) (hbuf : buf ≠ []) :
    parseLoop ('h' :: rest) h m buf last =
      parseLoop rest (h + digitsToNat buf) m [] (some LastU.hU) := by
  rw [parseLoop]
  simp [hbuf]

lemma parseLoop_min (rest : List Char) (h m : Nat) (buf : List Char)
    (last : Option LastU) (hbuf : buf ≠ []) :
    parseLoop ('m' :: 'i' :: 'n' :: rest) h m buf last =
      parseLoop rest h (m + digitsToNat buf) [] (some LastU.mU) := by
  rw [parseLoop]
  simp [hbuf]

lemma parseLoop_mShort (rest : List Char) (h m : Nat) (buf : List Char)
    (last : Option LastU) (hbuf : buf ≠ []) (hrest : rest.take 2 ≠ ['i', 'n']) :
    parseLoop ('m' :: rest) h m buf last =
      parseLoop rest h (m + digitsToNat buf) [] (some LastU.mU) := by
  rw [parseLoop]
  simp [hbuf, hrest]

lemma parseLoop_sep (c : Char) (rest : List Char) (h m : Nat) (buf : List Char)
    (last : Option LastU) (hc : c ∈ sepChars) :
    parseLoop (c :: rest) h m buf last = parseLoop rest h m buf last := by
  obtain ⟨h1, h2, h3, h4⟩ := sep_facts c hc
  rw [parseLoop]
  simp [h1, h2, h3, hc]

/-! #### Runs of digits and separators -/

lemma parseLoop_digits (ds : List Nat) (hds : ∀ d ∈ ds, d < 10) :
    ∀ (rest : List Char) (h m : Nat) (buf : List Char) (last : Option LastU),
      parseLoop (ds.map digitChar ++ rest) h m buf last =
        parseLoop rest h m (buf ++ ds.map digitChar) last := by
  induction ds with
  | nil => intro rest h m buf last; simp
  | cons d ds ih =>
    intro rest h m buf last
    have hd := digitChar_facts d (hds d (by simp))
    simp only [List.map_cons, List.cons_append]
    rw [parseLoop_digit _ _ _ _ _ _ hd.1,
        ih (fun e he => hds e (by simp [he])) rest h m (buf ++ [digitChar d]) last]
    simp

lemma digitsToNat_map (ds : List Nat) (hds : ∀ d ∈ ds, d < 10) :
    digitsToNat (ds.map digitChar) = natOfDigits ds := by
  unfold digitsToNat natOfDigits
  have aux : ∀ (ds : List Nat), (∀ d ∈ ds, d < 10) → ∀ (a : Nat),
      (ds.map digitChar).foldl (fun a c => 10 * a + (c.toNat - 48)) a =
        ds.foldl (fun a d => 10 * a + d) a := by
    intro ds
    induction ds with
    | nil => intro _ a; simp
    | cons d ds ih =>
      intro hds a
      have hd := digitChar_facts d (hds d (by simp))
      simp only [List.map_cons, List.foldl_cons, hd.2.2.2.2.2]
      rw [ih (fun e he => hds e (by simp [he]))]
      congr 1
      omega
  exact aux ds hds 0

lemma parseLoop_seps (sp : List Char) (hsp : ∀ c ∈ sp, c ∈ sepChars) :
    ∀ (rest : List Char) (h m : Nat) (buf : List Char) (last : Option LastU),
      parseLoop (sp ++ rest) h m buf last = parseLoop rest h m buf last := by
  induction sp with
  | nil => intro rest h m buf last; simp
  | cons c sp ih =>
    intro rest h m buf last
    simp only [List.cons_append]
    rw [parseLoop_sep _ _ _ _ _ _ (hsp c (by simp)),
        ih (fun e he => hsp e (by simp [he]))]

/-! #### Safe continuations -/

lemma contOk_nil : contOk [] := by
  intro c hc
  simp [contOk] at hc

lemma contOk_digits (ds : List Nat) (hds : ∀ d ∈ ds, d < 10) :
    contOk (ds.map digitChar) := by
  intro c hc
  cases ds with
  | nil => simp at hc
  | cons d ds =>
    simp only [List.map_cons, List.head?_cons, Option.some.injEq] at hc
    subst hc
    exact Or.inl (digitChar_facts d (hds d (by simp))).1

lemma contOk_append_seps (sp : List Char) (hsp : ∀ c ∈ sp, c ∈ sepChars)
    (k : List Char) (hk : contOk k) : contOk (sp ++ k) := by
  cases sp with
  | nil => simpa using hk
  | cons c sp =>
    intro e he
    simp only [List.cons_append, List.head?_cons, Option.some.injEq] at he
    exact Or.inr (he ▸ hsp c (by simp))

lemma contOk_renderSeq (l : List (DToken × List Char)) (hv : ValidSeq l)
    (k : List Char) (hk : contOk k) : contOk (renderSeq l ++ k) := by
  cases l with
  | nil => simpa [renderSeq] using hk
  | cons p l =>
    obtain ⟨t, sp⟩ := p
    obtain ⟨⟨hne, hlt⟩, _⟩ := hv (t, sp) (by simp)
    intro e he
    cases hds : t.digits with
    | nil => exact absurd hds hne
    | cons d ds =>
      simp only [renderSeq, renderTok, hds, List.map_cons, List.cons_append,
        List.append_assoc, List.head?_cons, Option.some.injEq] at he
      subst he
      exact Or.inl (digitChar_facts d (hlt d (by simp [hds]))).1

lemma contOk_take_two (k : List Char) (hk : contOk k) : k.take 2 ≠ ['i', 'n'] := by
  intro h
  cases k with
  | nil => simp at h
  | cons c rest =>
    have hc := hk c (by simp)
    simp only [List.take, List.cons.injEq] at h
    rcases hc with hd | hs
    · rw [h.1] at hd
      exact absurd hd (by decide)
    · rw [h.1] at hs
      exact absurd hs (by decide)

/-! #### The main lemma: `parseLoop` over a rendered token sequence -/

lemma parseLoop_renderSeq (l : List (DToken × List Char)) (hv : ValidSeq l)
    (rest : List Char) (hrest : contOk rest) :
    ∀ (h m : Nat) (last : Option LastU),
      parseLoop (renderSeq l ++ rest) h m [] last =
        parseLoop rest (h + hSum l) (m + mSum l) [] (lastOf l last) := by
  induction l with
  | nil =>
    intro h m last
    simp [renderSeq, hSum, mSum, lastOf]
  | cons p l ih =>
    intro h m last
    obtain ⟨t, sp⟩ := p
    obtain ⟨⟨hne, hlt⟩, hsp⟩ := hv (t, sp) (by simp)
    have hvl : ValidSeq l := fun q hq => hv q (by simp [hq])
    have hcont : contOk (sp ++ (renderSeq l ++ rest)) :=
      contOk_append_seps sp hsp _ (contOk_renderSeq l hvl rest hrest)
    have hmap : (t.digits.map digitChar) ≠ [] := by
      cases hds : t.digits with
      | nil => exact absurd hds hne
      | cons d ds => simp [hds]
    have hdv : digitsToNat (t.digits.map digitChar) = natOfDigits t.digits :=
      digitsToNat_map t.digits hlt
    have hstep :
        parseLoop (renderSeq ((t, sp) :: l) ++ rest) h m [] last =
          parseLoop (renderSeq l ++ rest) (h + hVal t) (m + mVal t) []
            (some (lastU t.unit)) := by
      simp only [renderSeq, renderTok, List.append_assoc]
      rw [parseLoop_digits t.digits hlt, List.nil_append]
      cases hu : t.unit with
      | uH =>
        simp only [unitChars, List.cons_append, List.nil_append]
        rw [parseLoop_h _ _ _ _ _ hmap, parseLoop_seps sp hsp, hdv]
        simp [hVal, mVal, hu, lastU]
      | uMin =>
        simp only [unitChars, List.cons_append, List.nil_append]
        rw [parseLoop_min _ _ _ _ _ hmap, parseLoop_seps sp hsp, hdv]
        simp [hVal, mVal, hu, lastU]
      | uM =>
        simp only [unitChars, List.cons_append, List.nil_append]
        rw [parseLoop_mShort _ _ _ _ _ hmap (contOk_take_two _ hcont),
            parseLoop_seps sp hsp, hdv]
        simp [hVal, mVal, hu, lastU]
    rw [hstep, ih hvl (h + hVal t) (m + mVal t) (some (lastU t.unit))]
    have h1 : hSum ((t, sp) :: l) = hVal t + hSum l := by simp [hSum]
    have h2 : mSum ((t, sp) :: l) = mVal t + mSum l := by simp [mSum]
    have h3 : lastOf ((t, sp) :: l) last = lastOf l (some (lastU t.unit)) := by
      simp [lastOf]
    rw [h1, h2, h3]
    ring_nf

lemma sum_tokMinutes (l : List (DToken × List Char)) :
    60 * hSum l + mSum l = (l.map (fun p => tokMinutes p.1)).sum := by
  induction l with
  | nil => simp [hSum, mSum]
  | cons p l ih =>
    have h1 : hSum (p :: l) = hVal p.1 + hSum l := by simp [hSum]
    have h2 : mSum (p :: l) = mVal p.1 + mSum l := by simp [mSum]
    have h3 : (((p :: l)).map (fun q => tokMinutes q.1)).sum =
        tokMinutes p.1 + (l.map (fun q => tokMinutes q.1)).sum := by simp
    have h4 : 60 * hVal p.1 + mVal p.1 = tokMinutes p.1 := by
      cases hu : p.1.unit <;> simp [tokMinutes, hVal, mVal, hu]
    rw [h1, h2, h3]
    omega

/-! #### Store lemmas -/

lemma dictLookup_set_self (st : List (List Char × Task)) (k : List Char) (v : Task) :
    dictLookup (dictSet st k v) k = some v := by
  induction st with
  | nil => simp [dictSet, dictLookup]
  | cons kv rest ih =>
    obtain ⟨k', v'⟩ := kv
    by_cases h : k' = k
    · simp [dictSet, dictLookup, h]
    · simp [dictSet, dictLookup, h, ih]

lemma dictLookup_set_other (st : List (List Char × Task)) (k k' : List Char)
    (v : Task) (hne : k' ≠ k) :
    dictLookup (dictSet st k v) k' = dictLookup st k' := by
  have hkk : ¬(k = k') := fun h => hne h.symm
  induction st with
  | nil => simp [dictSet, dictLookup, hkk]
  | cons kv rest ih =>
    obtain ⟨k0, v0⟩ := kv
    by_cases h : k0 = k
    · subst h
      simp [dictSet, dictLookup, hkk]
    · simp only [dictSet, if_neg h]
      by_cases h' : k0 = k'
      · simp [dictLookup, h']
      · simp [dictLookup, h', ih]

lemma dictLookup_update_self (st : List (List Char × Task)) (k : List Char)
    (f : Task → Task) (t : Task) (ht : dictLookup st k = some t) :
    dictLookup (dictUpdate st k f) k = some (f t) := by
  induction st with
  | nil => simp [dictLookup] at ht
  | cons kv rest ih =>
    obtain ⟨k0, v0⟩ := kv
    simp only [dictUpdate]
    by_cases h : k0 = k
    · rw [if_pos h]
      simp only [dictLookup, if_pos h, Option.some.injEq] at ht
      simp [dictLookup, h, ht]
    · rw [if_neg h]
      simp only [dictLookup, if_neg h] at ht
      simp [dictLookup, h, ih ht]

lemma dictLookup_update_other (st : List (List Char × Task)) (k k' : List Char)
    (f : Task → Task) (hne : k' ≠ k) :
    dictLookup (dictUpdate st k f) k' = dictLookup st k' := by
  induction st with
  | nil => simp [dictUpdate, dictLookup]
  | cons kv rest ih =>
    obtain ⟨k0, v0⟩ := kv
    simp only [dictUpdate]
    by_cases h : k0 = k
    · rw [if_pos h]
      have hne' : ¬(k0 = k') := fun h' => hne (h' ▸ h)
      simp [dictLookup, hne', ih]
    · rw [if_neg h]
      by_cases h' : k0 = k'
      · simp [dictLookup, h']
      · simp [dictLookup, h', ih]

/-! #### Scheduler lemmas -/

lemma postStore_keep (t : Task) (e : Except (List Task) (List Task)) :
    postStore
      (match e with
       | Except.ok l => Except.ok (t :: l)
       | Except.error l => Except.error (t :: l)) = t :: postStore e := by
  cases e <;> rfl

lemma tickE_post (now : Int) (r s : Task → Bool) (store : List Task)
    (hinv : ∀ t ∈ store, t.done_arrive = false) :
    ∀ t ∈ postStore (tickE now r s store), t.done_arrive = false ∧ t ∈ store := by
  induction store with
  | nil =>
    intro t ht
    simp [tickE, postStore] at ht
  | cons t0 rest ih =>
    intro t ht
    have h0 : t0.done_arrive = false := hinv t0 (by simp)
    have hrest : ∀ u ∈ rest, u.done_arrive = false := fun u hu => hinv u (by simp [hu])
    simp only [tickE] at ht
    by_cases hdue : (!t0.done_arrive && decide (now ≥ t0.arrive_utc)) = true
    · rw [if_pos hdue] at ht
      by_cases hexc : (r t0 && !s t0) = true
      · -- the send raises: the error state is the current store
        rw [if_pos hexc] at ht
        simp only [postStore] at ht
        rcases List.mem_cons.mp ht with h | h
        · exact ⟨h ▸ h0, by simp [h]⟩
        · exact ⟨hrest t h, by simp [h]⟩
      · -- notified (or channel unresolvable): t0 is marked and removed
        rw [if_neg hexc] at ht
        obtain ⟨h1, h2⟩ := ih hrest t ht
        exact ⟨h1, by simp [h2]⟩
    · -- t0 is not due and undelivered: it is kept unchanged
      rw [if_neg hdue,
          if_neg (show ¬(t0.done_arrive = true) by simp [h0]),
          postStore_keep] at ht
      rcases List.mem_cons.mp ht with h | h
      · exact ⟨h ▸ h0, by simp [h]⟩
      · obtain ⟨h1, h2⟩ := ih hrest t h
        exact ⟨h1, by simp [h2]⟩

lemma runTicks_post (steps : List TickStep) :
    ∀ store, (∀ t ∈ store, t.done_arrive = false) →
      ∀ t ∈ runTicks steps store, t.done_arrive = false ∧ t ∈ store := by
  induction steps with
  | nil =>
    intro store hinv t ht
    exact ⟨hinv t ht, ht⟩
  | cons p steps ih =>
    intro store hinv t ht
    obtain ⟨n, r, s⟩ := p
    simp only [runTicks] at ht
    have hinv' : ∀ u ∈ postStore (tickE n r s store), u.done_arrive = false :=
      fun u hu => (tickE_post n r s store hinv u hu).1
    obtain ⟨h1, h2⟩ := ih (postStore (tickE n r s store)) hinv' t ht
    exact ⟨h1, (tickE_post n r s store hinv t h2).2⟩

/-! ## Claim C1 -/

/-- Claim C1: after any sequence of scheduler ticks, every task still in the
store is undelivered (`done_arrive = false`) and is one of the original,
unmodified tasks; consequently a task whose delivered flag is `true` — in
particular the marked copy of a task delivered during a tick — is absent from
the store and therefore from every subsequent `by_guild` (`list_by_scope`)
result.  Since retained tasks are never modified and a marked task never
reappears, the flag transitions `false → true` at most once, and only a tick
(`tickE`) performs the marking.  The hypothesis is the invariant established
at creation (`done_arrive = False` is the dataclass default used by `add`)
and preserved by every tick. -/
theorem claim1_delivered_once_then_absent (store : List Task)
    (hinv : ∀ t ∈ store, t.done_arrive = false) :
    (∀ steps t, t ∈ runTicks steps store → t.done_arrive = false ∧ t ∈ store)
  ∧ (∀ steps gid t, t.done_arrive = true →
      t ∉ by_guild (runTicks steps store) gid) := by
  refine ⟨fun steps t ht => runTicks_post steps store hinv t ht, ?_⟩
  intro steps gid t hdone hmem
  have hm : t ∈ runTicks steps store := (List.mem_filter.mp hmem).1
  have hfalse := (runTicks_post steps store hinv t hm).1
  rw [hfalse] at hdone
  exact Bool.false_ne_true hdone

/-- Witness for C1: the delivered copy of `wTaskA` is absent from the guild
listing after a tick at time 100 (at which `wTaskA` is due and delivered). -/
theorem claim1_witness :
    ({ wTaskA with done_arrive := true } : Task) ∉
      by_guild (runTicks [((100 : Int), fun _ => true, fun _ => true)] [wTaskA]) 1 :=
  (claim1_delivered_once_then_absent [wTaskA] (by decide)).2
    [((100 : Int), fun _ => true, fun _ => true)] 1
    { wTaskA with done_arrive := true } rfl

/-! ## Claim C2 -/

/-- Claim C2 (counterexample): the sink call in `schedule_runner` is not
wrapped in any exception handler, so a raising `channel.send` is fatal to the
tick.  At time 100 both `wTaskA` and `wTaskB` are due; the channel of the
first resolves but its send raises.  The tick aborts with the store unchanged:
`wTaskA` is neither marked delivered nor removed, and the remaining due task
`wTaskB` is not processed — contradicting the claim that the failure is
non-fatal, the task still marked and removed, and the tick continued. -/
theorem claim2_counterexample :
    tickE 100 (fun _ => true) (fun _ => false) [wTaskA, wTaskB] =
      Except.error [wTaskA, wTaskB] := rfl

/-- Claim C2 (amended): only sink *unavailability* (an unresolvable channel,
`client.get_channel` returning no text channel) is non-fatal and non-retried —
the due task is still marked delivered and removed and the tick continues with
the remaining tasks (first conjunct: whenever no due task has a resolvable
channel whose send raises, the tick completes, removing exactly the due and
already-delivered tasks).  An exception raised by the send call itself aborts
the tick: the failing task is not marked and not removed, and the remaining
tasks are not processed (second conjunct). -/
theorem claim2_amended :
    (∀ (now : Int) (r s : Task → Bool) (store : List Task),
        (∀ t ∈ store, t.done_arrive = false → now ≥ t.arrive_utc →
          (r t = false ∨ s t = true)) →
        tickE now r s store = Except.ok (tickKeeps now store))
  ∧ (∀ (now : Int) (r s : Task → Bool) (t : Task) (rest : List Task),
        t.done_arrive = false → now ≥ t.arrive_utc → r t = true → s t = false →
        tickE now r s (t :: rest) = Except.error (t :: rest)) := by
  constructor
  · intro now r s store
    induction store with
    | nil => intro _; simp [tickE, tickKeeps]
    | cons t0 rest ih =>
      intro hsafe
      have hrest : ∀ u ∈ rest, u.done_arrive = false → now ≥ u.arrive_utc →
          (r u = false ∨ s u = true) :=
        fun u hu h1 h2 => hsafe u (by simp [hu]) h1 h2
      simp only [tickE]
      by_cases hd : t0.done_arrive = true
      · rw [if_neg (by simp [hd]), if_pos hd, ih hrest]
        simp [tickKeeps, hd]
      · have hd' : t0.done_arrive = false := by simpa using hd
        by_cases hq : decide (now ≥ t0.arrive_utc) = true
        · have hcond : (!t0.done_arrive && decide (now ≥ t0.arrive_utc)) = true := by
            simp [hd', hq]
          rw [if_pos hcond]
          have hsafe0 := hsafe t0 (by simp) hd' (of_decide_eq_true hq)
          have hexc : ¬((r t0 && !s t0) = true) := by
            rcases hsafe0 with h | h <;> simp [h]
          rw [if_neg hexc, ih hrest]
          simp [tickKeeps, hd', hq]
        · have hcond : ¬((!t0.done_arrive && decide (now ≥ t0.arrive_utc)) = true) := by
            simp [hq]
          rw [if_neg hcond, if_neg (by simp [hd']), ih hrest]
          simp [tickKeeps, hd', hq]
  · intro now r s t rest h1 h2 h3 h4
    simp only [tickE]
    rw [if_pos (by simp [h1, h2]), if_pos (by simp [h3, h4])]

/-- Witness for C2 (amended, first conjunct): a tick in which the due task's
channel does not resolve completes successfully and removes the task. -/
theorem claim2_witness :
    tickE 100 (fun _ => false) (fun _ => false) [wTaskA] = Except.ok [] := by
  have h := claim2_amended.1 100 (fun _ => false) (fun _ => false) [wTaskA]
    (fun t ht h1 h2 => Or.inl rfl)
  simpa +decide [tickKeeps, wTaskA] using h

/-! ## Claim C3 -/

/-- Claim C3: for every valid duration string composed of hour and minute
tokens — a sequence of digit-run/unit-marker tokens, each followed by an
arbitrary run of separator characters — the parsed duration equals the sum of
the individual tokens' contributions.  The right-hand side does not depend on
the separator runs, so the value is unchanged by inserting separators (space,
colon, slash, plus) between tokens.  In particular `parse_delta` yields the
same duration for `90min` and for `1h30min`. -/
theorem claim3_token_sum_and_separators :
    (∀ l : List (DToken × List Char), ValidSeq l →
        parseDeltaCore (renderSeq l) = some ((l.map (fun p => tokMinutes p.1)).sum))
  ∧ parse_delta ['9', '0', 'm', 'i', 'n'] =
      parse_delta ['1', 'h', '3', '0', 'm', 'i', 'n'] := by
  constructor
  · intro l hv
    unfold parseDeltaCore
    have h := parseLoop_renderSeq l hv [] contOk_nil 0 0 none
    simp only [List.append_nil] at h
    rw [h, parseLoop_nil]
    simp [sum_tokMinutes]
  · simp +decide [parse_delta, parseDeltaCore, parseLoop, stripL, lowerL,
      replaceMinutes, replaceMinute, replaceFun1, digitsToNat]

/-- Witness for C3: the single token `90min` parses to 90 minutes via the
universal part of the claim. -/
theorem claim3_witness : parseDeltaCore (renderSeq demoSeq) = some 90 := by
  have h := claim3_token_sum_and_separators.1 demoSeq (by decide)
  simpa [demoSeq, tokMinutes, natOfDigits] using h

/-! ## Claim C4 -/

/-- Claim C4 (counterexample): `parse_delta` applied to the empty string does
*not* fail — the scanning loop runs zero iterations, `buf` stays empty, and
`timedelta(hours=0, minutes=0)` is returned.  The claim that the empty string
is a parse error is false on the code. -/
theorem claim4_counterexample : parse_delta [] ≠ none := by
  simp [parse_delta, parseDeltaCore, parseLoop, stripL, lowerL,
    replaceMinutes, replaceMinute, replaceFun1]

/-- Claim C4 (amended): `parse_delta` applied to the empty string succeeds and
returns the zero duration (a task scheduled with it would be due
immediately). -/
theorem claim4_amended : parse_delta [] = some 0 := by
  simp [parse_delta, parseDeltaCore, parseLoop, stripL, lowerL,
    replaceMinutes, replaceMinute, replaceFun1, digitsToNat]

/-! ## Claim C5 -/

/-- Claim C5 (counterexample): in `5min7` the trailing numeric run `7` follows
a minute token, and the final `if buf and last != "m"` of `parse_delta` drops
it: the result is 5 minutes, not the 5 + 7 = 12 minutes the claim predicts
for a trailing run counted as minutes regardless of the preceding unit. -/
theorem claim5_counterexample :
    parse_delta ['5', 'm', 'i', 'n', '7'] = some 5 ∧
    parse_delta ['5', 'm', 'i', 'n', '7'] ≠ some 12 := by
  constructor <;>
    simp +decide [parse_delta, parseDeltaCore, parseLoop, stripL, lowerL,
      replaceMinutes, replaceMinute, replaceFun1, digitsToNat]

/-- Claim C5 (amended): a trailing numeric run with no unit marker is counted
as minutes exactly when the most recently parsed unit marker is not a minute
marker (i.e. at the start of the string or after an hour marker); when the
last unit parsed was a minute marker, the trailing run is silently ignored. -/
theorem claim5_trailing_run (l : List (DToken × List Char)) (hv : ValidSeq l)
    (ds : List Nat) (h1 : ds ≠ []) (h2 : ∀ d ∈ ds, d < 10) :
    parseDeltaCore (renderSeq l ++ ds.map digitChar) =
      some (60 * hSum l + mSum l +
        if lastOf l none = some LastU.mU then 0 else natOfDigits ds) := by
  unfold parseDeltaCore
  rw [parseLoop_renderSeq l hv (ds.map digitChar) (contOk_digits ds h2) 0 0 none]
  have hdig := parseLoop_digits ds h2 [] (0 + hSum l) (0 + mSum l) [] (lastOf l none)
  simp only [List.append_nil, List.nil_append] at hdig
  rw [hdig, parseLoop_nil]
  have hmap : ds.map digitChar ≠ [] := by
    cases ds with
    | nil => exact absurd rfl h1
    | cons d ds => simp
  by_cases hL : lastOf l none = some LastU.mU
  · rw [if_neg (by simp [hL]), if_pos hL]
    simp
  · rw [if_pos ⟨hmap, hL⟩, if_neg hL]
    have hval := digitsToNat_map ds h2
    simp only [Option.map_some', Nat.zero_add, hval, Option.some.injEq]
    ring

/-- Witness for C5 (amended): `1h` followed by the trailing run `7` parses to
67 minutes — the trailing run counts as minutes because the last unit marker
was the hour marker. -/
theorem claim5_witness :
    parseDeltaCore (renderSeq demoSeqH ++ [7].map digitChar) = some 67 := by
  have h := claim5_trailing_run demoSeqH (by decide) [7] (by decide) (by decide)
  simpa +decide [demoSeqH, hSum, mSum, hVal, mVal, lastOf, lastU, natOfDigits]
    using h

/-! ## Claim C6 -/

/-- Claim C6 (counterexample): `TaskStore.add` is `self.tasks[t.id] = t`
followed by `save()` — plain dict assignment.  Adding `wTaskA2`, whose id
equals `wTaskA`'s id, silently replaces the stored `wTaskA`; no failure of any
kind is reported.  The claim that a colliding add is treated as a retry-worthy
creation failure is false on the code. -/
theorem claim6_counterexample :
    storeAdd [(['a', 'a'], wTaskA)] wTaskA2 = [(['a', 'a'], wTaskA2)] ∧
    wTaskA2 ≠ wTaskA := by decide

/-- Claim C6 (amended): `TaskStore.add` unconditionally stores the task under
its id, silently overwriting any task already stored under that id, and leaves
every other key untouched; ids are 4-random-byte hex strings generated without
any collision check. -/
theorem claim6_add_overwrites (st : List (List Char × Task)) (t : Task) :
    dictLookup (storeAdd st t) t.id = some t ∧
    ∀ k, k ≠ t.id → dictLookup (storeAdd st t) k = dictLookup st k := by
  exact ⟨dictLookup_set_self st t.id t,
    fun k hk => dictLookup_set_other st t.id k t hk⟩

/-- Witness for C6 (amended): adding `wTaskA` to the empty store makes it
retrievable under its id, and an unrelated key is unaffected. -/
theorem claim6_witness :
    dictLookup (storeAdd [] wTaskA) wTaskA.id = some wTaskA ∧
    dictLookup (storeAdd [] wTaskA) ['z'] = dictLookup [] ['z'] :=
  ⟨(claim6_add_overwrites [] wTaskA).1,
    (claim6_add_overwrites [] wTaskA).2 ['z'] (by decide)⟩

/-! ## Claim C7 -/

/-- Claim C7: `defer` adds the parsed duration to the task's *current*
`arrive_utc` (`t.arrive_utc += td.total_seconds()`); the new arrival instant
is `T + delta` where `T` is the stored arrival instant — the current clock
does not occur in the computation (`deferOp` takes no `now`).  All other
entries of the store are untouched. -/
theorem claim7_defer_relative (st : List (List Char × Task)) (tid d : List Char)
    (t : Task) (mins : Nat) (ht : dictLookup st tid = some t)
    (hd : parse_delta d = some mins) :
    ∃ st', deferOp st tid d = Except.ok st' ∧
      dictLookup st' tid =
        some { t with arrive_utc := t.arrive_utc + 60 * (mins : Int) } ∧
      ∀ k, k ≠ tid → dictLookup st' k = dictLookup st k := by
  refine ⟨dictUpdate st tid
      (fun u => { u with arrive_utc := u.arrive_utc + 60 * (mins : Int) }), ?_, ?_, ?_⟩
  · unfold deferOp
    rw [ht, hd]
    rfl
  · exact dictLookup_update_self st tid _ t ht
  · exact fun k hk => dictLookup_update_other st tid k _ hk

/-- Witness for C7: deferring the stored task by `1h` moves its arrival from
50 to 50 + 3600. -/
theorem claim7_witness :
    ∃ st', deferOp [(['a', 'a'], wTaskA)] ['a', 'a'] ['1', 'h'] = Except.ok st' ∧
      dictLookup st' ['a', 'a'] =
        some { wTaskA with arrive_utc := wTaskA.arrive_utc + 60 * ((60 : Nat) : Int) } ∧
      ∀ k, k ≠ ['a', 'a'] → dictLookup st' k = dictLookup [(['a', 'a'], wTaskA)] k :=
  claim7_defer_relative [(['a', 'a'], wTaskA)] ['a', 'a'] ['1', 'h'] wTaskA 60
    (by decide)
    (by simp +decide [parse_delta, parseDeltaCore, parseLoop, stripL, lowerL,
      replaceMinutes, replaceMinute, replaceFun1, digitsToNat])

/-! ## Claim C8 -/

lemma taskOfJson_taskToJson (t : Task) : taskOfJson (taskToJson t) = some t := rfl

/-- Claim C8: persistence round-trip.  Loading the snapshot written by
`save()` reconstructs every task, in order, with field values identical to the
originals — including the arrival instant, whose numeric value is carried
exactly through the serialisation. -/
theorem claim8_roundtrip (st : List (List Char × Task)) :
    storeOfJson (storeToJson st) = some st := by
  induction st with
  | nil => rfl
  | cons kv rest ih =>
    obtain ⟨k, t⟩ := kv
    simp only [storeToJson, storeOfJson, List.map_cons, decodeEntries,
      taskOfJson_taskToJson] at *
    simp [ih]

/-! ## Claim C9 -/

/-- Claim C9 (counterexample): at time 100 the store holds exactly one task,
`wTaskA`, which is due; the tick marks and removes it, so at least one task is
modified/removed.  `TaskStore.remove` itself calls `save()`, and
`schedule_runner` then performs the end-of-tick `if changed: save()`, so the
tick flushes twice — not exactly once as the claim states. -/
theorem claim9_counterexample :
    totalSavesPerTick 100 [wTaskA] = 2 ∧ totalSavesPerTick 100 [wTaskA] ≠ 1 := by
  decide

lemma tickSaves_count (now : Int) (store : List Task) :
    (tickSaves now store).1 =
      store.countP (fun t => t.done_arrive || decide (now ≥ t.arrive_utc)) := by
  induction store with
  | nil => rfl
  | cons t rest ih =>
    cases hd : t.done_arrive <;> simp [tickSaves, ih, List.countP_cons, hd]

lemma tickSaves_changed (now : Int) (store : List Task) :
    (tickSaves now store).2 =
      store.any (fun t => !t.done_arrive && decide (now ≥ t.arrive_utc)) := by
  induction store with
  | nil => rfl
  | cons t rest ih => simp [tickSaves, ih, List.any_cons, Bool.or_comm]

/-- Claim C9 (amended): a tick performs one durable flush per removed task
(issued inside `TaskStore.remove`) plus one final batch flush exactly when
some task was marked this tick: the total is the number of tasks that are
delivered or due, plus one if any undelivered task is due. -/
theorem claim9_flush_count (now : Int) (store : List Task) :
    totalSavesPerTick now store =
      store.countP (fun t => t.done_arrive || decide (now ≥ t.arrive_utc)) +
      (if store.any (fun t => !t.done_arrive && decide (now ≥ t.arrive_utc))
        then 1 else 0) := by
  unfold totalSavesPerTick
  rw [tickSaves_count, tickSaves_changed]

/-! ## Claim C10 -/

lemma not_both_prefix (t : List Char) (hne : t ≠ [])
    (ha : isPrefixL t canonA = true) (hp : isPrefixL t canonP = true) : False := by
  cases t with
  | nil => exact hne rfl
  | cons c cs =>
    simp only [canonA, isPrefixL, Bool.and_eq_true, decide_eq_true_eq] at ha
    simp only [canonP, isPrefixL, Bool.and_eq_true, decide_eq_true_eq] at hp
    rw [ha.1] at hp
    exact absurd hp.1 (by decide)

/-- Claim C10 (counterexample): resolving the single-space string `" "` —
which is non-empty, is no exact match, and whose stripped, lowercased form is
the *empty* string, hence not a non-empty prefix of any canonical name — must,
per the claim, return the input unchanged.  The code instead returns
`Alexander`, because `"alexander".startswith("")` holds and the prefix test
never requires the normalised input to be non-empty. -/
theorem claim10_counterexample :
    normalize_fc [' '] = canonACap ∧ normalize_fc [' '] ≠ [' '] := by decide

/-- Claim C10 (amended): `normalize_fc` returns `""` on empty input; returns
the canonical label when the normalised input exactly matches a canonical name
or one of its aliases; returns the canonical name when the normalised input is
a non-empty prefix of it (the two canonical names share no non-empty prefix,
so this prefix is necessarily a prefix of exactly one of them); for a
*non-empty* input whose normalised form is the empty string (e.g. all
whitespace), returns `Alexander`, since the empty string is a prefix of every
canonical name and the `alexander` entry is tried first; and otherwise returns
the input unchanged (pass-through, never an error).  In particular `a` and
`al` resolve to `Alexander` and `x` is returned unchanged. -/
theorem claim10_resolution :
    (normalize_fc [] = [])
  ∧ (∀ s, (lowerL (stripL s) = canonA ∨ lowerL (stripL s) ∈ fcAliasesA) →
      normalize_fc s = canonACap)
  ∧ (∀ s, (lowerL (stripL s) = canonP ∨ lowerL (stripL s) ∈ fcAliasesP) →
      normalize_fc s = canonPCap)
  ∧ (∀ s, lowerL (stripL s) ≠ [] → isPrefixL (lowerL (stripL s)) canonA = true →
      normalize_fc s = canonACap)
  ∧ (∀ s, lowerL (stripL s) ≠ [] → isPrefixL (lowerL (stripL s)) canonP = true →
      normalize_fc s = canonPCap)
  ∧ (∀ s, s ≠ [] → lowerL (stripL s) = [] → normalize_fc s = canonACap)
  ∧ (∀ s, s ≠ [] →
      lowerL (stripL s) ≠ canonA → lowerL (stripL s) ∉ fcAliasesA →
      lowerL (stripL s) ≠ canonP → lowerL (stripL s) ∉ fcAliasesP →
      isPrefixL (lowerL (stripL s)) canonA = false →
      isPrefixL (lowerL (stripL s)) canonP = false →
      normalize_fc s = s)
  ∧ (normalize_fc ['a'] = canonACap ∧ normalize_fc ['a', 'l'] = canonACap ∧
      normalize_fc ['x'] = ['x']) := by
  refine ⟨rfl, ?_, ?_, ?_, ?_, ?_, ?_, by decide⟩
  · -- exact match against `alexander` or its aliases
    intro s hmem
    by_cases hs : s = []
    · exfalso
      subst hs
      revert hmem
      decide
    · unfold normalize_fc
      rw [if_neg hs, if_pos hmem]
  · -- exact match against `pandemonium` or its aliases
    intro s hmem
    by_cases hs : s = []
    · exfalso
      subst hs
      revert hmem
      decide
    · have hnotA : ¬(lowerL (stripL s) = canonA ∨ lowerL (stripL s) ∈ fcAliasesA) := by
        rintro (h | h)
        · rcases hmem with h' | h'
          · rw [h] at h'
            exact absurd h' (by decide)
          · rw [h] at h'
            revert h'
            decide
        · rcases hmem with h' | h'
          · rw [h'] at h
            revert h
            decide
          · simp only [fcAliasesP, canonP, List.mem_cons, List.mem_singleton,
              List.not_mem_nil, or_false] at h'
            rcases h' with h' | h' | h' | h' | h' | h' | h' <;> rw [h'] at h <;>
              revert h <;> decide
      unfold normalize_fc
      rw [if_neg hs, if_neg hnotA, if_pos hmem]
  · -- non-empty prefix of `alexander`
    intro s ht hpre
    by_cases hs : s = []
    · exfalso
      apply ht
      subst hs
      decide
    · unfold normalize_fc
      rw [if_neg hs]
      by_cases hA : (lowerL (stripL s) = canonA ∨ lowerL (stripL s) ∈ fcAliasesA)
      · rw [if_pos hA]
      · rw [if_neg hA]
        have hnotP : ¬(lowerL (stripL s) = canonP ∨ lowerL (stripL s) ∈ fcAliasesP) := by
          rintro (h | h)
          · rw [h] at hpre
            exact absurd hpre (by decide)
          · simp only [fcAliasesP, canonP, List.mem_cons, List.mem_singleton,
              List.not_mem_nil, or_false] at h
            rcases h with h | h | h | h | h | h | h <;> rw [h] at hpre <;>
              exact absurd hpre (by decide)
        rw [if_neg hnotP, if_pos hpre]
  · -- non-empty prefix of `pandemonium`
    intro s ht hpre
    by_cases hs : s = []
    · exfalso
      apply ht
      subst hs
      decide
    · unfold normalize_fc
      rw [if_neg hs]
      have hnotA : ¬(lowerL (stripL s) = canonA ∨ lowerL (stripL s) ∈ fcAliasesA) := by
        rintro (h | h)
        · rw [h] at hpre
          exact absurd hpre (by decide)
        · simp only [fcAliasesA, canonA, List.mem_cons, List.mem_singleton,
            List.not_mem_nil, or_false] at h
          rcases h with h | h | h | h | h | h <;> rw [h] at hpre <;>
            exact absurd hpre (by decide)
      rw [if_neg hnotA]
      by_cases hP : (lowerL (stripL s) = canonP ∨ lowerL (stripL s) ∈ fcAliasesP)
      · rw [if_pos hP]
      · rw [if_neg hP]
        have hnpa : ¬(isPrefixL (lowerL (stripL s)) canonA = true) := by
          intro hb
          exact not_both_prefix (lowerL (stripL s)) ht hb hpre
        rw [if_neg hnpa, if_pos hpre]
  · -- non-empty input normalising to the empty string
    intro s hs ht
    unfold normalize_fc
    rw [if_neg hs, ht]
    rfl
  · -- pass-through
    intro s hs h1 h2 h3 h4 h5 h6
    unfold normalize_fc
    rw [if_neg hs,
        if_neg (by rintro (h | h); exacts [h1 h, h2 h]),
        if_neg (by rintro (h | h); exacts [h3 h, h4 h]),
        if_neg (by simp [h5]), if_neg (by simp [h6])]

/-- Witness for C10 (amended): `alexa` is a non-empty prefix of `alexander`
only, and resolves to `Alexander`. -/
theorem claim10_witness : normalize_fc ['a', 'l', 'e', 'x', 'a'] = canonACap :=
  claim10_resolution.2.2.2.1 ['a', 'l', 'e', 'x', 'a'] (by decide) (by decide)

end FF14Sub
